import Mathlib

/-!
Shallow embedding of the sampling/aggregation core of the WSIMC desktop
monitor: the rolling chart-data cache (`src/tauri-app/src/services/dataCache.ts`),
the frontend process sorting (`ProcessWindow.sortedProcesses`,
`App.tsx filteredAndSortedProcesses`), the uptime formatter (`App.tsx
formatUptime`), and the backup monitor's local chart buffer
(`App_backup.tsx RealtimeMonitor.fetchRealtimeStats`).

JS numbers carrying percentages are embedded as rationals; millisecond
clock readings (`Date.now()`) as integers; JS `Map<string, CachedData>`
as a function `String → Option CachedData`.
-/

namespace WSIMC

/-- Structure `ChartDataPoint` from `dataCache.ts`: one normalized observation. -/
structure ChartDataPoint where
  timestamp : String
  cpu : ℚ
  memory : ℚ
  temperature : Option ℚ := none
deriving DecidableEq, Repr

/-- Structure `CachedData` from `dataCache.ts`: a series plus its last-write clock. -/
structure CachedData where
  chartData : List ChartDataPoint
  lastUpdate : Int
deriving DecidableEq, Repr

/-- Constant `MAX_CHART_POINTS = 50` in `dataCache.ts`. -/
def MAX_CHART_POINTS : Nat := 50

/-- Constant `CACHE_DURATION = 30 * 60 * 1000` milliseconds in `dataCache.ts`. -/
def CACHE_DURATION : Int := 30 * 60 * 1000

/-- The `Map<string, CachedData>` held by `DataCache`. -/
def Cache : Type := String → Option CachedData

/-- A `DataCache` whose map holds no key. -/
def emptyCache : Cache := fun _ => none

/-- Method `DataCache.isValidCache`: `Date.now() - lastUpdate < CACHE_DURATION`. -/
def isValidCache (now lastUpdate : Int) : Bool :=
  now - lastUpdate < CACHE_DURATION

/-- The JS `Array.prototype.slice(-n)`: the last `min n l.length` elements. -/
def sliceLast (n : Nat) (l : List α) : List α :=
  (l.reverse.take n).reverse

/-- Method `DataCache.addChartData`: look the key up, keep the series only when the
cache entry is still valid, push the point, keep the last
`MAX_CHART_POINTS` on overflow, store back with `lastUpdate = now`, and
return the series. -/
def addChartData (cache : Cache) (key : String) (dataPoint : ChartDataPoint)
    (now : Int) : List ChartDataPoint × Cache :=
  let chartData : List ChartDataPoint :=
    match cache key with
    | some cached => if isValidCache now cached.lastUpdate then cached.chartData else []
    | none => []
  let chartData := chartData ++ [dataPoint]
  let chartData :=
    if chartData.length > MAX_CHART_POINTS then sliceLast MAX_CHART_POINTS chartData
    else chartData
  (chartData, fun k => if k = key then some ⟨chartData, now⟩ else cache k)

/-- Method `DataCache.getChartData`: the stored series when the entry exists and is
valid, `[]` otherwise. -/
def getChartData (cache : Cache) (key : String) (now : Int) : List ChartDataPoint :=
  match cache key with
  | some cached => if isValidCache now cached.lastUpdate then cached.chartData else []
  | none => []

/-- Method `DataCache.clearCache`: delete one key, or clear the whole map. -/
def clearCache (cache : Cache) : Option String → Cache
  | some key => fun k => if k = key then none else cache k
  | none => emptyCache

/-- The map state after `addChartData` is folded over a list of (point, capture-time) pairs:
the state after a sequence of appends to one key. -/
def addMany (cache : Cache) (key : String)
    (ps : List (ChartDataPoint × Int)) : Cache :=
  ps.foldl (fun c pt => (addChartData c key pt.1 pt.2).2) cache

/-- Days component of `formatUptime` (`App.tsx:68`): `Math.floor(seconds / 86400)`. -/
def uptimeDays (seconds : Nat) : Nat := seconds / 86400

/-- Hours component of `formatUptime` (`App.tsx:69`):
`Math.floor((seconds % 86400) / 3600)`. -/
def uptimeHours (seconds : Nat) : Nat := (seconds % 86400) / 3600

/-- Minutes component of `formatUptime` (`App.tsx:70`):
`Math.floor((seconds % 3600) / 60)`. -/
def uptimeMinutes (seconds : Nat) : Nat := (seconds % 3600) / 60

/-- Function `formatUptime` (`App.tsx:67-72` and `App_new.tsx:104-109`). -/
def formatUptime (seconds : Nat) : String :=
  toString (uptimeDays seconds) ++ "d " ++ toString (uptimeHours seconds) ++ "h "
    ++ toString (uptimeMinutes seconds) ++ "m"

/-- One fetch of the backup monitor (`App_backup.tsx:199-202`):
`setChartData(prev => [...prev, newDataPoint].slice(-20))`. -/
def backupStep (prev : List ChartDataPoint) (newDataPoint : ChartDataPoint) :
    List ChartDataPoint :=
  sliceLast 20 (prev ++ [newDataPoint])

/-- The backup monitor's local chart state after a sequence of fetches,
starting from the initial `useState<ChartDataPoint[]>([])`. -/
def backupChartData (ps : List ChartDataPoint) : List ChartDataPoint :=
  ps.foldl backupStep []

/-! ### Lemmas about `sliceLast` -/

theorem sliceLast_eq_drop (n : Nat) (l : List α) :
    sliceLast n l = l.drop (l.length - n) := by
  unfold sliceLast
  rw [List.take_reverse, List.reverse_reverse]

theorem sliceLast_of_length_le {n : Nat} {l : List α} (h : l.length ≤ n) :
    sliceLast n l = l := by
  rw [sliceLast_eq_drop, Nat.sub_eq_zero_of_le h, List.drop_zero]

theorem length_sliceLast (n : Nat) (l : List α) :
    (sliceLast n l).length = min n l.length := by
  unfold sliceLast
  simp [List.length_take]

theorem sliceLast_append_sliceLast (n : Nat) (xs ys : List α) :
    sliceLast n (sliceLast n xs ++ ys) = sliceLast n (xs ++ ys) := by
  unfold sliceLast
  rw [List.reverse_append, List.reverse_reverse, List.reverse_append,
    List.take_append_eq_append_take, List.take_append_eq_append_take,
    List.take_take]
  congr 3
  exact inf_eq_left.mpr (Nat.sub_le _ _)

theorem foldl_sliceLast_append (n : Nat) (l : List α) :
    ∀ init : List α, init.length ≤ n →
      l.foldl (fun acc x => sliceLast n (acc ++ [x])) init = sliceLast n (init ++ l) := by
  induction l with
  | nil =>
    intro init h
    simp [sliceLast_of_length_le h]
  | cons x xs ih =>
    intro init h
    rw [List.foldl_cons,
      ih _ (by rw [length_sliceLast]; exact min_le_left _ _),
      sliceLast_append_sliceLast]
    simp

theorem ite_length_sliceLast (n : Nat) (l : List α) :
    (if n < l.length then sliceLast n l else l) = sliceLast n l := by
  split
  · rfl
  · exact (sliceLast_of_length_le (by omega)).symm

theorem getLast?_sliceLast {n : Nat} (hn : 0 < n) (l : List α) :
    (sliceLast n l).getLast? = l.getLast? := by
  unfold sliceLast
  rw [List.getLast?_eq_head?_reverse, List.reverse_reverse, List.head?_take,
    List.getLast?_eq_head?_reverse, if_neg (Nat.pos_iff_ne_zero.mp hn)]

/-- The last clock reading of a sequence of appends, `t0` when there is none. -/
def lastTime (t0 : Int) (ts : List Int) : Int := ts.foldl (fun _ t => t) t0

/-! ### C8: reads are total -/

/-- C8: `getChartData` never fails — it is a total function returning `[]`
when the key is absent, `[]` when the entry is stale, and the stored series
when the entry is fresh. -/
theorem getChartData_total (cache : Cache) (key : String) (now : Int) :
    (cache key = none → getChartData cache key now = []) ∧
    (∀ cd, cache key = some cd → isValidCache now cd.lastUpdate = false →
      getChartData cache key now = []) ∧
    (∀ cd, cache key = some cd → isValidCache now cd.lastUpdate = true →
      getChartData cache key now = cd.chartData) := by
  unfold getChartData
  refine ⟨fun h => by rw [h], fun cd h hv => by rw [h]; simp [hv],
    fun cd h hv => by rw [h]; simp [hv]⟩

/-- A cache holding one entry for key "realtime", written at clock 0. -/
def sampleCache : Cache :=
  fun k => if k = "realtime" then some ⟨[⟨"t0", 10, 20, none⟩], 0⟩ else none

theorem getChartData_total_witness :
    getChartData sampleCache "realtime" (30 * 60 * 1000) = [] :=
  (getChartData_total sampleCache "realtime" (30 * 60 * 1000)).2.1
    ⟨[⟨"t0", 10, 20, none⟩], 0⟩ (by decide) (by decide)

/-! ### C7: append returns the current series -/

/-- C7: `addChartData` returns the full current series: it is nonempty, its
last element is the appended point, and it is exactly what `getChartData`
on the same key returns immediately afterwards. -/
theorem addChartData_returns_series (cache : Cache) (key : String)
    (p : ChartDataPoint) (now : Int) :
    (addChartData cache key p now).1 ≠ [] ∧
    ((addChartData cache key p now).1).getLast? = some p ∧
    getChartData (addChartData cache key p now).2 key now
      = (addChartData cache key p now).1 := by
  unfold addChartData getChartData
  simp only [gt_iff_lt, ite_length_sliceLast]
  refine ⟨?_, ?_, ?_⟩
  · intro h
    have := congrArg List.length h
    rw [length_sliceLast] at this
    simp [MAX_CHART_POINTS] at this
  · rw [getLast?_sliceLast (by norm_num [MAX_CHART_POINTS])]
    exact List.getLast?_concat _
  · simp [isValidCache, CACHE_DURATION]

/-! ### C2: staleness resets the series -/

/-- C2: for every key whose entry was last written more than the staleness
duration ago, a read returns the empty series, and the next append starts a
fresh series holding exactly the appended point. -/
theorem stale_series_resets (cache : Cache) (key : String) (cd : CachedData)
    (p : ChartDataPoint) (now : Int)
    (hcd : cache key = some cd)
    (hstale : CACHE_DURATION < now - cd.lastUpdate) :
    getChartData cache key now = [] ∧
    (addChartData cache key p now).1 = [p] ∧
    (addChartData cache key p now).2 key = some ⟨[p], now⟩ := by
  have hv : isValidCache now cd.lastUpdate = false := by
    simp [isValidCache]
    omega
  unfold getChartData addChartData
  rw [hcd]
  simp [hv, MAX_CHART_POINTS]

theorem stale_series_resets_witness :
    getChartData sampleCache "realtime" (31 * 60 * 1000) = [] ∧
    (addChartData sampleCache "realtime" ⟨"t31", 5, 6, none⟩ (31 * 60 * 1000)).1
      = [⟨"t31", 5, 6, none⟩] ∧
    (addChartData sampleCache "realtime" ⟨"t31", 5, 6, none⟩ (31 * 60 * 1000)).2 "realtime"
      = some ⟨[⟨"t31", 5, 6, none⟩], 31 * 60 * 1000⟩ :=
  stale_series_resets sampleCache "realtime" ⟨[⟨"t0", 10, 20, none⟩], 0⟩
    ⟨"t31", 5, 6, none⟩ (31 * 60 * 1000) (by decide) (by decide)

/-! ### C1: capacity and FIFO eviction -/

/-- Under a chain of appends each landing within the staleness window of the
previous write, the stored entry is the running `sliceLast` fold of the
appended points, stamped with the last append time. -/
theorem addMany_chain (key : String) :
    ∀ (ps : List (ChartDataPoint × Int)) (cache : Cache)
      (acc : List ChartDataPoint) (t0 : Int),
      cache key = some ⟨acc, t0⟩ →
      List.Chain (fun a b => b - a < CACHE_DURATION) t0 (ps.map Prod.snd) →
      (addMany cache key ps) key =
        some ⟨ps.foldl (fun a x => sliceLast MAX_CHART_POINTS (a ++ [x.1])) acc,
              lastTime t0 (ps.map Prod.snd)⟩ := by
  intro ps
  induction ps with
  | nil =>
    intro cache acc t0 hcd _
    simpa [addMany, lastTime] using hcd
  | cons x xs ih =>
    intro cache acc t0 hcd hchain
    rw [List.map_cons] at hchain
    rcases List.chain_cons.mp hchain with ⟨hfresh, hrest⟩
    have hv : isValidCache x.2 t0 = true := by
      simp [isValidCache]
      omega
    have hstep : (addChartData cache key x.1 x.2).2 key
        = some ⟨sliceLast MAX_CHART_POINTS (acc ++ [x.1]), x.2⟩ := by
      unfold addChartData
      rw [hcd]
      simp only [hv, if_true, gt_iff_lt, ite_length_sliceLast, if_pos rfl]
    have := ih ((addChartData cache key x.1 x.2).2)
      (sliceLast MAX_CHART_POINTS (acc ++ [x.1])) x.2 hstep hrest
    simpa [addMany, lastTime] using this

/-- C1: appending `capacity + 1` points to a fresh series, each within the
staleness window of the previous append, leaves exactly the last `capacity`
points in append order; the evicted first point is absent whenever it does
not recur among the rest. -/
theorem capacity_eviction (cache : Cache) (key : String)
    (p0 : ChartDataPoint × Int) (ps : List (ChartDataPoint × Int))
    (hfresh : cache key = none)
    (hlen : ps.length = MAX_CHART_POINTS)
    (hchain : List.Chain (fun a b => b - a < CACHE_DURATION) p0.2 (ps.map Prod.snd)) :
    getChartData (addMany cache key (p0 :: ps)) key (lastTime p0.2 (ps.map Prod.snd))
      = ((p0 :: ps).map Prod.fst).drop 1 ∧
    (((p0 :: ps).map Prod.fst).drop 1).length = MAX_CHART_POINTS ∧
    (p0.1 ∉ ps.map Prod.fst →
      p0.1 ∉ getChartData (addMany cache key (p0 :: ps)) key
        (lastTime p0.2 (ps.map Prod.snd))) := by
  have hstep0 : (addChartData cache key p0.1 p0.2).2 key
      = some ⟨[p0.1], p0.2⟩ := by
    unfold addChartData
    rw [hfresh]
    simp [MAX_CHART_POINTS]
  have hmany : (addMany cache key (p0 :: ps)) key =
      some ⟨ps.foldl (fun a x => sliceLast MAX_CHART_POINTS (a ++ [x.1])) [p0.1],
            lastTime p0.2 (ps.map Prod.snd)⟩ := by
    have := addMany_chain key ps ((addChartData cache key p0.1 p0.2).2)
      [p0.1] p0.2 hstep0 hchain
    simpa [addMany] using this
  have hfold : ps.foldl (fun a x => sliceLast MAX_CHART_POINTS (a ++ [x.1])) [p0.1]
      = ((p0 :: ps).map Prod.fst).drop 1 := by
    have h1 : ps.foldl (fun a x => sliceLast MAX_CHART_POINTS (a ++ [x.1])) [p0.1]
        = (ps.map Prod.fst).foldl
            (fun a y => sliceLast MAX_CHART_POINTS (a ++ [y])) [p0.1] := by
      rw [List.foldl_map]
    rw [h1, foldl_sliceLast_append MAX_CHART_POINTS (ps.map Prod.fst) [p0.1]
      (by simp [MAX_CHART_POINTS]), sliceLast_eq_drop]
    simp [hlen]
  have hget : getChartData (addMany cache key (p0 :: ps)) key
      (lastTime p0.2 (ps.map Prod.snd)) = ((p0 :: ps).map Prod.fst).drop 1 := by
    unfold getChartData
    rw [hmany, hfold]
    simp [isValidCache, CACHE_DURATION]
  refine ⟨hget, ?_, ?_⟩
  · simp [hlen]
  · intro habs
    rw [hget]
    simpa using habs

/-- Fifty-one data points all captured at clock 0: one head plus a 50-point tail. -/
def c1Head : ChartDataPoint × Int := (⟨"pt0", 0, 0, none⟩, 0)

/-- The 50 tail points for the capacity witness. -/
def c1Tail : List (ChartDataPoint × Int) :=
  (List.range 50).map (fun i => (⟨toString (i + 1), 0, 0, none⟩, 0))

theorem capacity_eviction_witness :
    getChartData (addMany emptyCache "realtime" (c1Head :: c1Tail)) "realtime"
        (lastTime c1Head.2 (c1Tail.map Prod.snd))
      = ((c1Head :: c1Tail).map Prod.fst).drop 1 :=
  (capacity_eviction emptyCache "realtime" c1Head c1Tail rfl (by decide)
    (by rw [show c1Tail.map Prod.snd = List.replicate 50 (0 : Int) from by decide]
        exact List.chain_replicate_of_rel 50 (by decide))).1

/-! ### C9: uptime breakdown -/

/-- C9: for every non-negative integer `seconds`, `formatUptime` renders a
breakdown with `days = seconds / 86400` (floored), `hours ≤ 23`,
`minutes ≤ 59`, and the reconstruction
`days*86400 + hours*3600 + minutes*60` undershoots `seconds` by less than
60 seconds. -/
theorem formatUptime_breakdown (seconds : Nat) :
    uptimeDays seconds = seconds / 86400 ∧
    uptimeHours seconds ≤ 23 ∧
    uptimeMinutes seconds ≤ 59 ∧
    uptimeDays seconds * 86400 + uptimeHours seconds * 3600
      + uptimeMinutes seconds * 60 ≤ seconds ∧
    seconds < uptimeDays seconds * 86400 + uptimeHours seconds * 3600
      + uptimeMinutes seconds * 60 + 60 := by
  unfold uptimeDays uptimeHours uptimeMinutes
  omega

/-! ### C10: the backup monitor's local chart buffer -/

/-- C10: after any sequence of fetches, the backup monitor's local chart
history holds exactly the most recently appended points in arrival order —
the last `min 20 n` of the `n` appended points — and so never exceeds 20
points. -/
theorem backupChartData_bounded (ps : List ChartDataPoint) :
    backupChartData ps = ps.drop (ps.length - 20) ∧
    (backupChartData ps).length ≤ 20 := by
  have hstep : backupStep = fun acc x => sliceLast 20 (acc ++ [x]) := rfl
  have h : backupChartData ps = sliceLast 20 ps := by
    unfold backupChartData
    rw [hstep]
    simpa using foldl_sliceLast_append 20 ps [] (by simp)
  refine ⟨by rw [h, sliceLast_eq_drop], ?_⟩
  rw [h, length_sliceLast]
  exact min_le_left _ _

/-! ### C4: process sorting in the frontend -/

/-- Structure `ProcessInfo` as fetched from the `get_top_processes` command
(`src/unnamed/part_001:12-17`). -/
structure ProcessInfo where
  name : String
  pid : Nat
  cpu_usage : ℚ
  memory : ℚ
deriving DecidableEq, Repr

/-- Stable insertion of `x` behind every already-placed element whose
`cpu_usage` is at least `x`'s own. -/
def insertByCpuDesc (x : ProcessInfo) : List ProcessInfo → List ProcessInfo
  | [] => [x]
  | y :: ys =>
    if y.cpu_usage < x.cpu_usage then x :: y :: ys else y :: insertByCpuDesc x ys

/-- Function `sortedProcesses` (`src/unnamed/part_001:54-59`, `sortBy = 'cpu'`):
`[...processes].sort((a, b) => b.cpu_usage - a.cpu_usage)` — the stable JS
sort of the fetched list, descending by `cpu_usage`, embedded as a stable
insertion sort processing the list in fetched order. -/
def sortedProcesses (processes : List ProcessInfo) : List ProcessInfo :=
  processes.foldl (fun acc x => insertByCpuDesc x acc) []

/-- Descending-by-cpu order between two adjacent entries. -/
def cpuGe (a b : ProcessInfo) : Prop := b.cpu_usage ≤ a.cpu_usage

theorem insertByCpuDesc_perm (x : ProcessInfo) (l : List ProcessInfo) :
    (insertByCpuDesc x l).Perm (x :: l) := by
  induction l with
  | nil => exact List.Perm.refl _
  | cons y ys ih =>
    unfold insertByCpuDesc
    split
    · exact List.Perm.refl _
    · exact (List.Perm.cons y ih).trans (List.Perm.swap x y ys)

theorem insertByCpuDesc_sorted {x : ProcessInfo} {l : List ProcessInfo}
    (h : l.Pairwise cpuGe) : (insertByCpuDesc x l).Pairwise cpuGe := by
  induction l with
  | nil => simp [insertByCpuDesc, List.pairwise_cons]
  | cons y ys ih =>
    rw [List.pairwise_cons] at h
    unfold insertByCpuDesc
    split
    · rename_i hlt
      rw [List.pairwise_cons]
      refine ⟨?_, List.pairwise_cons.mpr h⟩
      intro z hz
      rcases List.mem_cons.mp hz with rfl | hz
      · exact le_of_lt hlt
      · exact le_trans (h.1 z hz) (le_of_lt hlt)
    · rename_i hge
      rw [List.pairwise_cons]
      refine ⟨?_, ih h.2⟩
      intro z hz
      rcases List.mem_cons.mp ((insertByCpuDesc_perm x ys).mem_iff.mp hz) with rfl | hz
      · exact not_lt.mp hge
      · exact h.1 z hz

theorem insertByCpuDesc_filter (c : ℚ) {x : ProcessInfo} {l : List ProcessInfo}
    (h : l.Pairwise cpuGe) :
    (insertByCpuDesc x l).filter (fun z => z.cpu_usage == c)
      = l.filter (fun z => z.cpu_usage == c)
        ++ (if x.cpu_usage == c then [x] else []) := by
  induction l with
  | nil => simp [insertByCpuDesc, List.filter_cons]
  | cons y ys ih =>
    rw [List.pairwise_cons] at h
    unfold insertByCpuDesc
    split
    · rename_i hlt
      by_cases hc : x.cpu_usage = c
      · have hnil : (y :: ys).filter (fun z => z.cpu_usage == c) = [] := by
          rw [List.filter_eq_nil_iff]
          intro z hz
          have hzy : z.cpu_usage ≤ y.cpu_usage := by
            rcases List.mem_cons.mp hz with rfl | hz
            · exact le_refl _
            · exact h.1 z hz
          have hlt' : z.cpu_usage < c := lt_of_le_of_lt hzy (hc ▸ hlt)
          simp [ne_of_lt hlt']
        rw [List.filter_cons_of_pos (by simp [hc]), hnil]
        simp [hc]
      · rw [List.filter_cons_of_neg (by simp [hc])]
        simp [hc]
    · rw [List.filter_cons, ih h.2, List.filter_cons]
      by_cases hy : y.cpu_usage = c <;> simp [hy]

theorem foldl_insertByCpuDesc_sorted (l : List ProcessInfo) :
    ∀ acc : List ProcessInfo, acc.Pairwise cpuGe →
      (l.foldl (fun a x => insertByCpuDesc x a) acc).Pairwise cpuGe := by
  induction l with
  | nil => intro acc h; simpa using h
  | cons x xs ih =>
    intro acc h
    rw [List.foldl_cons]
    exact ih _ (insertByCpuDesc_sorted h)

theorem foldl_insertByCpuDesc_perm (l : List ProcessInfo) :
    ∀ acc : List ProcessInfo,
      (l.foldl (fun a x => insertByCpuDesc x a) acc).Perm (acc ++ l) := by
  induction l with
  | nil => intro acc; simp
  | cons x xs ih =>
    intro acc
    rw [List.foldl_cons]
    refine ((ih _).trans ?_)
    refine (List.Perm.append_right xs (insertByCpuDesc_perm x acc)).trans ?_
    exact List.perm_middle.symm

theorem foldl_insertByCpuDesc_filter (c : ℚ) (l : List ProcessInfo) :
    ∀ acc : List ProcessInfo, acc.Pairwise cpuGe →
      (l.foldl (fun a x => insertByCpuDesc x a) acc).filter
          (fun z => z.cpu_usage == c)
        = acc.filter (fun z => z.cpu_usage == c)
          ++ l.filter (fun z => z.cpu_usage == c) := by
  induction l with
  | nil => intro acc _; simp
  | cons x xs ih =>
    intro acc h
    rw [List.foldl_cons, ih _ (insertByCpuDesc_sorted h),
      insertByCpuDesc_filter c h, List.filter_cons]
    by_cases hx : x.cpu_usage = c <;> simp [hx]

/-- Process with pid 100 at 12.3% cpu, fetched first. -/
def tieFirst : ProcessInfo := ⟨"a", 100, mkRat 123 10, 0⟩

/-- Process with pid 50 at 12.3% cpu, fetched second. -/
def tieSecond : ProcessInfo := ⟨"b", 50, mkRat 123 10, 0⟩

/-- C4 counterexample: two processes both at 12.3% cpu, pids 100 and 50
fetched in that order — the sort keeps pid 100 first; pid 50 does not
appear first as the claim requires. -/
theorem sortedProcesses_no_pid_tiebreak :
    (sortedProcesses [tieFirst, tieSecond]).map ProcessInfo.pid = [100, 50] ∧
    (sortedProcesses [tieFirst, tieSecond]).map ProcessInfo.pid ≠ [50, 100] := by
  constructor <;> decide

/-- C4 amended: the frontend sort returns a permutation of the full fetched
list (no limit is applied), sorted descending by `cpu_usage`; entries with
equal `cpu_usage` keep their fetched order (stable sort) rather than being
reordered by ascending pid. -/
theorem sortedProcesses_spec (processes : List ProcessInfo) :
    (sortedProcesses processes).Perm processes ∧
    (sortedProcesses processes).Pairwise cpuGe ∧
    ∀ c : ℚ, (sortedProcesses processes).filter (fun z => z.cpu_usage == c)
      = processes.filter (fun z => z.cpu_usage == c) := by
  refine ⟨?_, ?_, ?_⟩
  · simpa using foldl_insertByCpuDesc_perm processes []
  · exact foldl_insertByCpuDesc_sorted processes [] (by simp)
  · intro c
    simpa using foldl_insertByCpuDesc_filter c processes [] (by simp)

/-! ### The Normalizer (modelled from the spec)

The Rust backend computing `cpu_usage` / `memory_usage` for
`get_extended_realtime_stats` is not among the frontend sources; only its
callers are (`App_new.tsx:162-188`). Its normalization rules are modelled
from spec sections 4.2 and 8. -/

/-- Modelled from the spec: the Normalizer's clamp — every percent field is
clamped to [0,100] regardless of upstream noise (spec section 4.2; the Rust
backend implementing it is absent from the frontend sources). -/
def clampPercent (x : ℚ) : ℚ := min 100 (max 0 x)

/-- Modelled from the spec: the normalized chart point built from one raw
sample and fed to the cache (`App_new.tsx:174-180`); the backend producing
the raw percents is absent, so they pass through the spec's clamp. -/
def normalizePoint (timestamp : String) (rawCpu rawMemory : ℚ) : ChartDataPoint :=
  ⟨timestamp, clampPercent rawCpu, clampPercent rawMemory, none⟩

/-- Both percent fields of a stored point lie in [0,100]. -/
def percentInRange (p : ChartDataPoint) : Prop :=
  0 ≤ p.cpu ∧ p.cpu ≤ 100 ∧ 0 ≤ p.memory ∧ p.memory ≤ 100

/-- Every point of every stored series has its percents in [0,100]. -/
def cacheInRange (cache : Cache) : Prop :=
  ∀ k cd, cache k = some cd → ∀ p ∈ cd.chartData, percentInRange p

theorem clampPercent_mem (x : ℚ) : 0 ≤ clampPercent x ∧ clampPercent x ≤ 100 := by
  unfold clampPercent
  constructor
  · exact le_min (by norm_num) (le_max_left 0 x)
  · exact min_le_left _ _

/-- C3: a normalized point has both percents in [0,100], and feeding
normalized points through `addChartData` keeps every stored sample point's
percents in [0,100], whatever the raw values were. -/
theorem normalized_cache_in_range (cache : Cache) (hc : cacheInRange cache)
    (key timestamp : String) (rawCpu rawMemory : ℚ) (now : Int) :
    percentInRange (normalizePoint timestamp rawCpu rawMemory) ∧
    (∀ p ∈ (addChartData cache key (normalizePoint timestamp rawCpu rawMemory) now).1,
      percentInRange p) ∧
    cacheInRange (addChartData cache key (normalizePoint timestamp rawCpu rawMemory) now).2 := by
  have hpt : percentInRange (normalizePoint timestamp rawCpu rawMemory) := by
    unfold percentInRange normalizePoint
    rcases clampPercent_mem rawCpu with ⟨h1, h2⟩
    rcases clampPercent_mem rawMemory with ⟨h3, h4⟩
    exact ⟨h1, h2, h3, h4⟩
  have hret : ∀ p ∈ (addChartData cache key
      (normalizePoint timestamp rawCpu rawMemory) now).1, percentInRange p := by
    intro p hp
    unfold addChartData at hp
    simp only [gt_iff_lt, ite_length_sliceLast] at hp
    rw [sliceLast_eq_drop] at hp
    have hp' := List.drop_subset _ _ hp
    rcases List.mem_append.mp hp' with hp'' | hp''
    · revert hp''
      cases hcd : cache key with
      | none => simp
      | some cd =>
        simp only []
        split
        · intro hmem
          exact hc key cd hcd p hmem
        · simp
    · rw [List.mem_singleton.mp hp'']
      exact hpt
  refine ⟨hpt, hret, ?_⟩
  intro k cd hk p hp
  unfold addChartData at hk
  simp only [] at hk
  by_cases hkey : k = key
  · rw [if_pos hkey] at hk
    cases hk
    apply hret
    unfold addChartData
    exact hp
  · rw [if_neg hkey] at hk
    exact hc k cd hk p hp

theorem normalized_cache_in_range_witness :
    percentInRange (normalizePoint "t" 137 50) ∧
    (normalizePoint "t" 137 50).cpu = 100 :=
  ⟨(normalized_cache_in_range emptyCache
      (fun k cd h => by simp [emptyCache] at h)
      "realtime" "t" 137 50 0).1,
    by norm_num [normalizePoint, clampPercent]⟩

/-- Modelled from the spec: aggregate CPU usage — raw per-core usages
averaged across the logical core count, never summed (spec sections 4.2
and 8; the Rust backend implementing it is absent from the frontend
sources). -/
def aggregateCpu (perCore : List ℚ) : ℚ := perCore.sum / perCore.length

/-- C5: for every nonempty list of per-core usages each in [0,100], the
per-core average lies in [0,100] — in particular it never exceeds 100. -/
theorem aggregateCpu_bounded (perCore : List ℚ) (hne : perCore ≠ [])
    (h : ∀ x ∈ perCore, 0 ≤ x ∧ x ≤ 100) :
    0 ≤ aggregateCpu perCore ∧ aggregateCpu perCore ≤ 100 := by
  have hlen : 0 < (perCore.length : ℚ) := by
    have := List.length_pos.mpr hne
    exact_mod_cast this
  unfold aggregateCpu
  constructor
  · exact div_nonneg (List.sum_nonneg (fun x hx => (h x hx).1)) (le_of_lt hlen)
  · rw [div_le_iff₀ hlen]
    have := List.sum_le_card_nsmul perCore 100 (fun x hx => (h x hx).2)
    rw [nsmul_eq_mul] at this
    linarith

/-- C5 witness: four cores all at 100% average to 100, not 400. -/
theorem aggregateCpu_bounded_witness :
    (0 ≤ aggregateCpu [100, 100, 100, 100] ∧ aggregateCpu [100, 100, 100, 100] ≤ 100) ∧
    aggregateCpu [100, 100, 100, 100] = 100 :=
  ⟨aggregateCpu_bounded [100, 100, 100, 100] (by simp)
      (by intro x hx; fin_cases hx <;> norm_num),
    by norm_num [aggregateCpu]⟩

/-- Modelled from the spec: memory percent — `used / total * 100` clamped to
[0,100], and 0 when `total = 0` (spec sections 4.2 and 8; the Rust backend
implementing it is absent from the frontend sources). -/
def memoryPercent (used total : ℚ) : ℚ :=
  if total = 0 then 0 else clampPercent (used / total * 100)

/-- C6: memory percent returns 0 when total is 0 (no division by zero),
equals the clamped ratio when total is nonzero, always lies in [0,100],
and agrees with the raw ratio whenever `0 ≤ used ≤ total`. -/
theorem memoryPercent_safe (used total : ℚ) :
    memoryPercent used 0 = 0 ∧
    (total ≠ 0 → memoryPercent used total = min 100 (max 0 (used / total * 100))) ∧
    (0 ≤ memoryPercent used total ∧ memoryPercent used total ≤ 100) ∧
    (0 ≤ used → used ≤ total → 0 < total →
      memoryPercent used total = used / total * 100) := by
  refine ⟨by simp [memoryPercent], fun ht => by simp [memoryPercent, ht, clampPercent], ?_, ?_⟩
  · unfold memoryPercent
    split
    · norm_num
    · exact clampPercent_mem _
  · intro h0 hut hpos
    have hle1 : used / total ≤ 1 := (div_le_one hpos).mpr hut
    have hnn : 0 ≤ used / total * 100 :=
      mul_nonneg (div_nonneg h0 (le_of_lt hpos)) (by norm_num)
    have hub : used / total * 100 ≤ 100 := by nlinarith
    rw [memoryPercent, if_neg (ne_of_gt hpos), clampPercent,
      max_eq_right hnn, min_eq_right hub]

/-- C6 witness: total 0 with nonzero used reports 0, and a nonzero total
yields the clamped ratio. -/
theorem memoryPercent_safe_witness :
    memoryPercent 5 0 = 0 ∧
    memoryPercent 1 2 = min 100 (max 0 ((1 : ℚ) / 2 * 100)) :=
  ⟨(memoryPercent_safe 5 0).1, (memoryPercent_safe 1 2).2.1 (by norm_num)⟩

end WSIMC
